import Mathlib

/-!
Shallow embedding of the AzureBoardsBlockDuplicates duplicate-detection
engine (src/unnamed/part_000, class duplicateObserver).

Pure functions of the source become Lean functions; the stateful pieces
(configuration store, debounce timer, form error state) are modelled by
explicit state passing; promise settlement is modelled by tagging every
chunk evaluation with the instant at which it settles and an
`Except Unit Bool` outcome (`.error` = rejection).  External npm
libraries called by the engine (striptags, fast-dice-coefficient,
fetch-retry) are not part of the repository; the definitions that stand
in for them carry a `Modelled from the spec:` doc comment.
-/

/-- Whitespace characters matched by the JS regex `\s` (and removed by
`String.prototype.trim`): tab, LF, VT, FF, CR, space, NBSP, ogham space,
the en/em spaces U+2000..U+200A, line/paragraph separator, narrow NBSP,
medium mathematical space, ideographic space and BOM. -/
def jsWhitespaceChars : List Char :=
  ['\t', '\n', Char.ofNat 11, Char.ofNat 12, '\r', ' ',
   Char.ofNat 160, Char.ofNat 5760, Char.ofNat 8192, Char.ofNat 8193,
   Char.ofNat 8194, Char.ofNat 8195, Char.ofNat 8196, Char.ofNat 8197,
   Char.ofNat 8198, Char.ofNat 8199, Char.ofNat 8200, Char.ofNat 8201,
   Char.ofNat 8202, Char.ofNat 8232, Char.ofNat 8233, Char.ofNat 8239,
   Char.ofNat 8287, Char.ofNat 12288, Char.ofNat 65279]

/-- Decide whether a character counts as JS whitespace. -/
def isJsSpace (c : Char) : Bool :=
  decide (c ∈ jsWhitespaceChars)

/-- The fixed punctuation set removed by `normalizeString`
(source line 146: the regex character class
`[.,\/#!$%\^&\*;:\x7b\x7d=\-_\x60~()]`). -/
def punctChars : List Char :=
  ['.', ',', '/', '#', '!', '$', '%', '^', '&', '*', ';', ':',
   Char.ofNat 123, Char.ofNat 125, '=', '-', '_', Char.ofNat 96, '~', '(', ')']

/-- Decide whether a character is in the removed punctuation set. -/
def isPunct (c : Char) : Bool :=
  decide (c ∈ punctChars)

/-- JS `String.prototype.toLowerCase`, modelled on the basic latin range:
an upper-case ASCII letter is shifted down by 32, all other characters
are unchanged. -/
def jsToLower (c : Char) : Char :=
  if 65 ≤ c.toNat ∧ c.toNat ≤ 90 then Char.ofNat (c.toNat + 32) else c

/-- Modelled from the spec: the `striptags` library used at source line 145
is not under src/; the spec (§4.1) says normalization must
"strip all markup tags".  A markup tag opens with the character U+003C
and closes at the first following U+003E; an opener with no closer left
in the input starts no tag and is kept verbatim, exactly as a global
regex replace of complete tags would behave. -/
def stripTags : List Char → List Char
  | [] => []
  | c :: rest =>
    if c = '<' then
      if rest.any (fun d => decide (d = '>')) then
        stripTags ((rest.dropWhile (fun d => decide (d ≠ '>'))).tail)
      else
        c :: rest
    else
      c :: stripTags rest
termination_by l => l.length
decreasing_by
  · simp only [List.length_cons]
    have h1 : ((rest.dropWhile (fun d => decide (d ≠ '>'))).tail).length ≤
        (rest.dropWhile (fun d => decide (d ≠ '>'))).length := by
      cases rest.dropWhile (fun d => decide (d ≠ '>')) <;> simp
    have h2 : (rest.dropWhile (fun d => decide (d ≠ '>'))).length ≤ rest.length :=
      (List.dropWhile_sublist _).length_le
    omega
  · simp only [List.length_cons]; omega

/-- Source line 146: remove every character of the fixed punctuation set
(the global regex replace by the empty string keeps exactly the other
characters, in order). -/
def removePunct (l : List Char) : List Char :=
  l.filter (fun c => !(isPunct c))

/-- Source line 147: the global replace of `\s\x7b2,\x7d` by a single space.
A maximal run of two or more whitespace characters becomes one space;
a lone whitespace character is kept as it is. -/
def collapseWs : List Char → List Char
  | [] => []
  | c :: rest =>
    if isJsSpace c then
      (if rest.takeWhile isJsSpace = [] then [c] else [' ']) ++
        collapseWs (rest.dropWhile isJsSpace)
    else
      c :: collapseWs rest
termination_by l => l.length
decreasing_by
  · simp only [List.length_cons]
    have := (List.dropWhile_sublist (l := rest) isJsSpace).length_le
    omega
  · simp only [List.length_cons]; omega

/-- Source line 148: `String.prototype.trim`, removing JS whitespace from
both ends. -/
def trimWs (l : List Char) : List Char :=
  ((l.dropWhile isJsSpace).reverse.dropWhile isJsSpace).reverse

/-- The chained body of `normalizeString` on character lists: strip markup
tags, remove the fixed punctuation set, collapse whitespace runs, trim,
and lower-case, in the source's order. -/
def normalizeChars (l : List Char) : List Char :=
  (trimWs (collapseWs (removePunct (stripTags l)))).map jsToLower

/-- Source lines 142-152 (`normalizeString`): empty (or absent) input maps
to the empty string; otherwise apply the five-stage chain. -/
def normalizeString (s : String) : String :=
  if s = "" then "" else String.mk (normalizeChars s.data)

/-- Does a character list contain a markup-tag pattern, i.e. an occurrence
of U+003C with a later U+003E?  `stripTags` output never does. -/
def hasTag : List Char → Bool
  | [] => false
  | c :: rest =>
    (decide (c = '<') && rest.any (fun d => decide (d = '>'))) || hasTag rest

/-- Two adjacent characters are acceptable when they are not both
whitespace (no whitespace run of length two survives collapsing). -/
def WsSep (c d : Char) : Prop := isJsSpace c = false ∨ isJsSpace d = false

/-- A character list is canonical when it is a fixed point of every stage
of `normalizeChars`: no markup-tag pattern, no removed punctuation, no
two adjacent whitespace characters, no whitespace at either end, and
every character fixed by lower-casing. -/
def Canonical (l : List Char) : Prop :=
  hasTag l = false ∧ (∀ c ∈ l, isPunct c = false) ∧ List.Chain' WsSep l ∧
  (∀ c ∈ l.head?, isJsSpace c = false) ∧ (∀ c ∈ l.getLast?, isJsSpace c = false) ∧
  ∀ c ∈ l, jsToLower c = c

/-- The list of adjacent character pairs of a string's character list. -/
def bigramList (l : List Char) : List (Char × Char) :=
  l.zip l.tail

/-- The multiset of character bigrams of a string. -/
def bigrams (s : String) : Multiset (Char × Char) :=
  (bigramList s.data : List (Char × Char))

/-- Modelled from the spec: the similarity scorer imported at source line 4
is the `fast-dice-coefficient` library, which is not under src/.  The spec
(§4.2) names a bigram/dice-style coefficient as the reference algorithm:
twice the size of the multiset intersection of the two bigram multisets,
divided by the total number of bigrams; a string with fewer than two
characters has no bigram and scores 0 against everything. -/
def dice (a b : String) : ℚ :=
  if a.length < 2 ∨ b.length < 2 then 0
  else ((2 * ((bigrams a) ∩ (bigrams b)).card : ℕ) : ℚ) /
    ((a.length + b.length - 2 : ℕ) : ℚ)

/-- One record of a batch-endpoint response: identity plus the two
projected fields (absent title/description modelled as `""`,
which is what `normalizeString` maps them to anyway). -/
structure CandidateWI where
  id : String
  title : String
  description : String
deriving DecidableEq

/-- Source line 233: drop every returned record whose identity equals the
current record's identity, before any scoring. -/
def filteredCandidates (currentWorkItemId : String) (items : List CandidateWI) :
    List CandidateWI :=
  items.filter (fun w => decide (w.id ≠ currentWorkItemId))

/-- Source lines 240-250: the `.every` loop over titles; it stops at the
first candidate whose title similarity reaches the title threshold. -/
def scanTitles (currentWorkItemTitle : String) (titleSimilarityIndex : ℚ) :
    List CandidateWI → Bool
  | [] => false
  | w :: rest =>
    if titleSimilarityIndex ≤ dice currentWorkItemTitle (normalizeString w.title) then true
    else scanTitles currentWorkItemTitle titleSimilarityIndex rest

/-- Source lines 257-267: the `.every` loop over descriptions; it stops at
the first candidate whose description similarity reaches the description
threshold. -/
def scanDescriptions (currentWorkItemDescription : String)
    (descriptionSimilarityIndex : ℚ) : List CandidateWI → Bool
  | [] => false
  | w :: rest =>
    if descriptionSimilarityIndex ≤
        dice currentWorkItemDescription (normalizeString w.description) then true
    else scanDescriptions currentWorkItemDescription descriptionSimilarityIndex rest

/-- Source lines 227-269: the verdict computed from a 2xx batch response:
filter out the current record, scan titles first (only when the current
normalized title is non-empty), and only if no title matched and the
current normalized description is non-empty, scan descriptions. -/
def chunkVerdict (currentWorkItemId currentWorkItemTitle currentWorkItemDescription : String)
    (titleSimilarityIndex descriptionSimilarityIndex : ℚ)
    (items : List CandidateWI) : Bool :=
  let filtered := filteredCandidates currentWorkItemId items
  let dupTitle :=
    if currentWorkItemTitle ≠ "" then
      scanTitles currentWorkItemTitle titleSimilarityIndex filtered
    else false
  if dupTitle then true
  else if currentWorkItemDescription ≠ "" then
    scanDescriptions currentWorkItemDescription descriptionSimilarityIndex filtered
  else false

/-- The observable outcome of one network attempt of the batch fetch:
either a network-level error or an HTTP response carrying a status code
and the decoded list of records. -/
inductive AttemptResult where
  | netError : AttemptResult
  | response (status : ℕ) (items : List CandidateWI) : AttemptResult
deriving DecidableEq

/-- Source line 17 (`_statusCodes`). -/
def statusCodes : List ℕ := [503, 504]

/-- Source lines 23-29 (`_options.retryOn`): retry on any network error or
when the status is one of `_statusCodes`; otherwise the callback falls
through, returning a falsy value. -/
def retryOn (r : AttemptResult) : Bool :=
  match r with
  | .netError => true
  | .response status _ => decide (status ∈ statusCodes)

/-- Source lines 20-22 (`_options.retryDelay`): `2 ^ attempt * 1000`. -/
def retryDelay (attempt : ℕ) : ℕ := 2 ^ attempt * 1000

/-- Source line 19 (`_options.retries`). -/
def retriesOption : ℕ := 3

/-- Modelled from the spec: the retry loop lives in the external
`fetch-retry` package (source line 7), which is not under src/.  Per the
spec (§4.5), attempts are numbered from 0 and an attempt whose outcome
satisfies `retryOn` is retried while fewer than `retries` retries have
been performed.  `attempts i` is the outcome the network would give the
i-th attempt. -/
def fetchRetryFrom (attempts : ℕ → AttemptResult) (i : ℕ) : AttemptResult :=
  if h : retryOn (attempts i) = true ∧ i < retriesOption then
    fetchRetryFrom attempts (i + 1)
  else attempts i
termination_by retriesOption - i
decreasing_by omega

/-- The outcome the retrying fetch finally settles with. -/
def fetchRetryResult (attempts : ℕ → AttemptResult) : AttemptResult :=
  fetchRetryFrom attempts 0

/-- Modelled from the spec: the backoff delays the `fetch-retry` loop
sleeps through, in order; before the retry that follows failed attempt
`i` it waits `retryDelay i` time units. -/
def fetchRetryDelays (attempts : ℕ → AttemptResult) (i : ℕ) : List ℕ :=
  if h : retryOn (attempts i) = true ∧ i < retriesOption then
    retryDelay i :: fetchRetryDelays attempts (i + 1)
  else []
termination_by retriesOption - i
decreasing_by omega

/-- Source lines 199-290 (`validateWorkItemChunk`), as a function of the
prescribed attempt outcomes: a network error surviving the retry loop is
caught by the `.catch` handler and rejects the chunk promise
(`.error ()`); a response resolves the promise with the scan verdict when
the status is 2xx and with `false` otherwise. -/
def validateWorkItemChunk (currentWorkItemId currentWorkItemTitle
    currentWorkItemDescription : String)
    (titleSimilarityIndex descriptionSimilarityIndex : ℚ)
    (attempts : ℕ → AttemptResult) : Except Unit Bool :=
  match fetchRetryResult attempts with
  | .netError => .error ()
  | .response status items =>
    .ok (if 200 ≤ status ∧ status < 300 then
      chunkVerdict currentWorkItemId currentWorkItemTitle currentWorkItemDescription
        titleSimilarityIndex descriptionSimilarityIndex items
    else false)

instance exceptUnitBoolDecEq : DecidableEq (Except Unit Bool) := fun a b =>
  match a, b with
  | .ok x, .ok y =>
    if h : x = y then isTrue (by rw [h]) else isFalse (by intro hc; cases hc; exact h rfl)
  | .ok _, .error _ => isFalse (by intro hc; cases hc)
  | .error _, .ok _ => isFalse (by intro hc; cases hc)
  | .error x, .error y =>
    if h : x = y then isTrue (by rw [h]) else isFalse (by intro hc; cases hc; exact h rfl)

/-- One chunk evaluation as the aggregator sees it: the instant at which
the underlying promise settles and its outcome (`.error` = rejection). -/
structure PromiseEval where
  time : ℕ
  result : Except Unit Bool
deriving DecidableEq

/-- Is this outcome a rejection? -/
def isErr : Except Unit Bool → Bool
  | .error _ => true
  | .ok _ => false

/-- Is this outcome a fulfilled `true`? -/
def isTrueResult : Except Unit Bool → Bool
  | .ok true => true
  | _ => false

/-- Source lines 294-296: each input promise is wrapped in a promise that
resolves `true` when the input fulfils with `true`, rejects when the
input rejects, and never settles when the input fulfils with `false`.
The settle events of the wrappers, as (instant, outcome) pairs. -/
def mappedSettles (evals : List PromiseEval) : List (ℕ × Except Unit Bool) :=
  evals.filterMap (fun e =>
    match e.result with
    | .ok true => some (e.time, .ok true)
    | .ok false => none
    | .error u => some (e.time, .error u))

/-- The time of completion of `Promise.all` over the input promises when
none rejects: the instant the last of them settles (0 for no promises). -/
def maxTime (evals : List PromiseEval) : ℕ :=
  (evals.map PromiseEval.time).foldr max 0

/-- Source line 297: the settle event of
`Promise.all(promises).then(() => false)` — it fulfils with `false` once
every input has fulfilled, and rejects at the first rejection of an
input. -/
def allSettle (evals : List PromiseEval) : ℕ × Except Unit Bool :=
  match evals.filter (fun e => isErr e.result) with
  | [] => (maxTime evals, .ok false)
  | e :: es => (((e :: es).map PromiseEval.time).foldr min e.time, .error ())

/-- `Promise.race`: of the candidate settle events the one with the least
instant wins; on equal instants the earlier entry of the candidate list
wins, matching handler attachment order. -/
def raceWinner : List (ℕ × Except Unit Bool) → ℕ × Except Unit Bool → ℕ × Except Unit Bool
  | [], d => d
  | c :: rest, d =>
    let w := raceWinner rest d
    if c.1 ≤ w.1 then c else w

/-- Source lines 293-299 (`getfirstResolvedPromise`): race the wrapped
promises against the `Promise.all`-based fallback; the returned pair is
the instant at which the aggregate settles and its outcome. -/
def getfirstResolvedPromise (evals : List PromiseEval) : ℕ × Except Unit Bool :=
  raceWinner (mappedSettles evals) (allSettle evals)

/-- The extension-data store holding the two persisted thresholds
(`none` = key absent). -/
structure ConfigStore where
  titleIndex : Option ℚ
  descriptionIndex : Option ℚ
deriving DecidableEq

/-- Source lines 155-174 (`getTitleSimilarityIndex`): read the stored
value; when the read comes back falsy (absent, or the number 0) write the
default 0.95 and return what `setValue` returns. -/
def getTitleSimilarityIndex (store : ConfigStore) : ℚ × ConfigStore :=
  match store.titleIndex with
  | none => ((0.95 : ℚ), { store with titleIndex := some (0.95 : ℚ) })
  | some v =>
    if v = 0 then ((0.95 : ℚ), { store with titleIndex := some (0.95 : ℚ) })
    else (v, store)

/-- Source lines 177-196 (`getDescriptionSimilarityIndex`): same policy
with default 0.85. -/
def getDescriptionSimilarityIndex (store : ConfigStore) : ℚ × ConfigStore :=
  match store.descriptionIndex with
  | none => ((0.85 : ℚ), { store with descriptionIndex := some (0.85 : ℚ) })
  | some v =>
    if v = 0 then ((0.85 : ℚ), { store with descriptionIndex := some (0.85 : ℚ) })
    else (v, store)

/-- A reference returned by the WIQL query (`System.Id` only). -/
structure WorkItemReference where
  id : ℕ
deriving DecidableEq

/-- Source lines 104-110: the batching loop — `slice(i, i + 200)` for
`i = 0, 200, 400, ...` below the result length. -/
def chunkLoop : List WorkItemReference → List (List WorkItemReference)
  | [] => []
  | x :: xs => (x :: xs).take 200 :: chunkLoop ((x :: xs).drop 200)
termination_by l => l.length
decreasing_by simp only [List.length_drop, List.length_cons]; omega

/-- The snapshot of the host work-item form that `validateWorkItem`
reads: current field values and the invalid-field list (each entry its
description). -/
structure FormState where
  title : String
  description : String
  systemId : String
  workItemType : String
  invalidFields : List String
deriving DecidableEq

/-- The two error-state writes `validateWorkItem` can perform on the host
form. -/
inductive FormAction where
  | setError
  | clearError
deriving DecidableEq

/-- Source lines 42-139 (`validateWorkItem`): resolve missing arguments
from the form, abort when both are empty, read the thresholds, chunk the
query result, evaluate every chunk concurrently (`net k` prescribes the
network outcomes of chunk `k`, `times k` the instant its promise
settles), aggregate, and — unless the aggregate rejected or the form has
other invalid fields — set or clear the duplicate error.  Returns the
actions performed on the form and the final configuration store. -/
def validateWorkItem (titleArg descriptionArg : String) (form : FormState)
    (store : ConfigStore) (queryItems : List WorkItemReference)
    (net : ℕ → ℕ → AttemptResult) (times : ℕ → ℕ) :
    List FormAction × ConfigStore :=
  let title := if titleArg = "" then form.title else titleArg
  let description := if descriptionArg = "" then form.description else descriptionArg
  if title = "" ∧ description = "" then ([], store)
  else
    let currentId := if form.systemId = "" then "-1" else form.systemId
    let ts := getTitleSimilarityIndex store
    let ds := getDescriptionSimilarityIndex ts.2
    let chunks := chunkLoop queryItems
    let evals := (List.range chunks.length).map (fun k =>
      PromiseEval.mk (times k)
        (validateWorkItemChunk currentId (normalizeString title)
          (normalizeString description) ts.1 ds.1 (net k)))
    match (getfirstResolvedPromise evals).2 with
    | .error _ => ([], ds.2)
    | .ok duplicate =>
      if form.invalidFields.length > 0 then ([], ds.2)
      else if duplicate then ([FormAction.setError], ds.2)
      else ([FormAction.clearError], ds.2)

/-- The debounce timer owned by the trigger controller: deadline plus the
title/description values captured when it was scheduled. -/
structure PendingTimer where
  deadline : ℕ
  title : String
  description : String
deriving DecidableEq

/-- The `changedFields` payload of a field-changed notification; `none`
models a field absent from the map (JS `undefined`). -/
structure ChangedFieldsArgs where
  title : Option String
  description : Option String
deriving DecidableEq

/-- Reading a possibly-absent changed-field value as the string the
source's truthiness tests see (`undefined` behaves like `""`). -/
def fieldValue : Option String → String
  | none => ""
  | some s => s

/-- Source lines 302-320 (`onFieldChanged`): when the changed fields carry
a non-empty title or description, cancel any pending timer and schedule a
new 2000-unit debounce capturing those values; otherwise do nothing. -/
def onFieldChanged (timerState : Option PendingTimer) (args : ChangedFieldsArgs)
    (now : ℕ) : Option PendingTimer :=
  let title := fieldValue args.title
  let description := fieldValue args.description
  if title ≠ "" ∨ description ≠ "" then
    some (PendingTimer.mk (now + 2000) title description)
  else timerState

/-- What a pending timer will do when it fires: run a validation pass with
the captured values (`none` = no pass scheduled). -/
def fireTimer : Option PendingTimer → Option (String × String)
  | none => none
  | some t => some (t.title, t.description)

/-! ### Character-level helper lemmas -/

theorem char_toNat_inj {a b : Char} (h : a.toNat = b.toNat) : a = b :=
  Char.ext (UInt32.ext h)

theorem toNat_charOfNat_valid (n : ℕ) (h : n < 55296) : (Char.ofNat n).toNat = n := by
  have hv : Nat.isValidChar n := Or.inl h
  rw [Char.ofNat, dif_pos hv]
  rfl

theorem jsToLower_eq_self {c : Char} (h : ¬(65 ≤ c.toNat ∧ c.toNat ≤ 90)) :
    jsToLower c = c := by
  unfold jsToLower
  rw [if_neg h]

theorem jsToLower_upper {c : Char} (h : 65 ≤ c.toNat ∧ c.toNat ≤ 90) :
    (jsToLower c).toNat = c.toNat + 32 := by
  unfold jsToLower
  rw [if_pos h]
  exact toNat_charOfNat_valid _ (by omega)

theorem wsChars_toNat : ∀ c ∈ jsWhitespaceChars, c.toNat < 65 ∨ 122 < c.toNat := by decide

theorem punctChars_toNat :
    ∀ c ∈ punctChars, c.toNat < 65 ∨ (90 < c.toNat ∧ c.toNat < 97) ∨ 122 < c.toNat := by
  decide

theorem isJsSpace_toNat {c : Char} (h : isJsSpace c = true) :
    c.toNat < 65 ∨ 122 < c.toNat :=
  wsChars_toNat c (of_decide_eq_true h)

theorem isPunct_toNat {c : Char} (h : isPunct c = true) :
    c.toNat < 65 ∨ (90 < c.toNat ∧ c.toNat < 97) ∨ 122 < c.toNat :=
  punctChars_toNat c (of_decide_eq_true h)

theorem isJsSpace_jsToLower (c : Char) : isJsSpace (jsToLower c) = isJsSpace c := by
  by_cases h : 65 ≤ c.toNat ∧ c.toNat ≤ 90
  · have h1 : (jsToLower c).toNat = c.toNat + 32 := jsToLower_upper h
    have h2 : isJsSpace c = false := by
      cases hb : isJsSpace c with
      | false => rfl
      | true => rcases isJsSpace_toNat hb with hlt | hgt <;> omega
    have h3 : isJsSpace (jsToLower c) = false := by
      cases hb : isJsSpace (jsToLower c) with
      | false => rfl
      | true => rcases isJsSpace_toNat hb with hlt | hgt <;> omega
    rw [h2, h3]
  · rw [jsToLower_eq_self h]

theorem isPunct_jsToLower (c : Char) : isPunct (jsToLower c) = isPunct c := by
  by_cases h : 65 ≤ c.toNat ∧ c.toNat ≤ 90
  · have h1 : (jsToLower c).toNat = c.toNat + 32 := jsToLower_upper h
    have h2 : isPunct c = false := by
      cases hb : isPunct c with
      | false => rfl
      | true => rcases isPunct_toNat hb with hlt | hmid | hgt <;> omega
    have h3 : isPunct (jsToLower c) = false := by
      cases hb : isPunct (jsToLower c) with
      | false => rfl
      | true => rcases isPunct_toNat hb with hlt | hmid | hgt <;> omega
    rw [h2, h3]
  · rw [jsToLower_eq_self h]

theorem jsToLower_idem (c : Char) : jsToLower (jsToLower c) = jsToLower c := by
  by_cases h : 65 ≤ c.toNat ∧ c.toNat ≤ 90
  · apply jsToLower_eq_self
    rw [jsToLower_upper h]
    omega
  · rw [jsToLower_eq_self h, jsToLower_eq_self h]

theorem jsToLower_eq_symbol {s : Char} (hs : s.toNat < 65 ∨ 122 < s.toNat) (c : Char) :
    jsToLower c = s ↔ c = s := by
  constructor
  · intro h
    by_cases hu : 65 ≤ c.toNat ∧ c.toNat ≤ 90
    · exfalso
      have h1 : (jsToLower c).toNat = c.toNat + 32 := jsToLower_upper hu
      have h2 : (jsToLower c).toNat = s.toNat := by rw [h]
      rcases hs with hs | hs <;> omega
    · rwa [jsToLower_eq_self hu] at h
  · intro h
    subst h
    apply jsToLower_eq_self
    rcases hs with hs | hs <;> omega

/-! ### C10 — field-changed events with no new title/description -/

/-- C10: a field-changed event whose changed fields carry neither a
non-empty title nor a non-empty description leaves the controller state
unchanged — the pending debounce timer (and the values it captured)
survives untouched, and when no timer was pending none is scheduled. -/
theorem c10_field_changed_noop (timerState : Option PendingTimer)
    (args : ChangedFieldsArgs) (now : ℕ)
    (ht : fieldValue args.title = "") (hd : fieldValue args.description = "") :
    onFieldChanged timerState args now = timerState ∧
    fireTimer (onFieldChanged timerState args now) = fireTimer timerState ∧
    (timerState = none → onFieldChanged timerState args now = none) := by
  have h : onFieldChanged timerState args now = timerState := by
    unfold onFieldChanged
    simp [ht, hd]
  exact ⟨h, by rw [h], fun hn => by rw [h, hn]⟩

theorem c10_field_changed_noop_witness :
    onFieldChanged (some (PendingTimer.mk 100 ("old title") ("old desc")))
      (ChangedFieldsArgs.mk (some ("")) none) 7 =
      some (PendingTimer.mk 100 ("old title") ("old desc")) :=
  (c10_field_changed_noop (some (PendingTimer.mk 100 ("old title") ("old desc")))
    (ChangedFieldsArgs.mk (some ("")) none) 7 rfl rfl).1

/-! ### C5 — threshold reads -/

/-- C5 counterexample: with the title threshold stored as the number 0 the
value is present, yet the read does not return it and does not leave the
store unchanged — JS truthiness makes the getter overwrite a stored 0
with the default 0.95. -/
theorem c5_counterexample :
    (ConfigStore.mk (some 0) none).titleIndex.isSome = true ∧
    getTitleSimilarityIndex (ConfigStore.mk (some 0) none) =
      ((0.95 : ℚ), ConfigStore.mk (some (0.95 : ℚ)) none) ∧
    getTitleSimilarityIndex (ConfigStore.mk (some 0) none) ≠
      ((0 : ℚ), ConfigStore.mk (some 0) none) := by
  refine ⟨rfl, ?_, ?_⟩
  · unfold getTitleSimilarityIndex
    norm_num
  · unfold getTitleSimilarityIndex
    norm_num

/-- C5 (amended): a read returns a stored nonzero value and leaves the
store unchanged; when the value is absent or stored as 0 (falsy) the read
writes and returns the hard-coded default (0.95 title, 0.85 description);
and a whole `validateWorkItem` pass touches the store through these two
reads only. -/
theorem c5_threshold_amended :
    (∀ (store : ConfigStore) (v : ℚ), store.titleIndex = some v → v ≠ 0 →
      getTitleSimilarityIndex store = (v, store)) ∧
    (∀ store : ConfigStore, store.titleIndex = none ∨ store.titleIndex = some 0 →
      getTitleSimilarityIndex store =
        ((0.95 : ℚ), { store with titleIndex := some (0.95 : ℚ) })) ∧
    (∀ (store : ConfigStore) (v : ℚ), store.descriptionIndex = some v → v ≠ 0 →
      getDescriptionSimilarityIndex store = (v, store)) ∧
    (∀ store : ConfigStore,
      store.descriptionIndex = none ∨ store.descriptionIndex = some 0 →
      getDescriptionSimilarityIndex store =
        ((0.85 : ℚ), { store with descriptionIndex := some (0.85 : ℚ) })) ∧
    (∀ (titleArg descriptionArg : String) (form : FormState) (store : ConfigStore)
      (queryItems : List WorkItemReference) (net : ℕ → ℕ → AttemptResult)
      (times : ℕ → ℕ),
      (validateWorkItem titleArg descriptionArg form store queryItems net times).2 = store ∨
      (validateWorkItem titleArg descriptionArg form store queryItems net times).2 =
        (getDescriptionSimilarityIndex (getTitleSimilarityIndex store).2).2) := by
  refine ⟨?_, ?_, ?_, ?_, ?_⟩
  · intro store v hv hnz
    unfold getTitleSimilarityIndex
    rw [hv]
    simp [hnz]
  · intro store hv
    unfold getTitleSimilarityIndex
    rcases hv with hv | hv <;> rw [hv] <;> simp
  · intro store v hv hnz
    unfold getDescriptionSimilarityIndex
    rw [hv]
    simp [hnz]
  · intro store hv
    unfold getDescriptionSimilarityIndex
    rcases hv with hv | hv <;> rw [hv] <;> simp
  · intro titleArg descriptionArg form store queryItems net times
    unfold validateWorkItem
    dsimp only
    by_cases hcond : (if titleArg = "" then form.title else titleArg) = "" ∧
        (if descriptionArg = "" then form.description else descriptionArg) = ""
    · rw [if_pos hcond]
      left
      rfl
    · rw [if_neg hcond]
      split
      · right; rfl
      · split
        · right; rfl
        · split
          · right; rfl
          · right; rfl

theorem c5_threshold_amended_witness :
    getTitleSimilarityIndex (ConfigStore.mk (some (1/2 : ℚ)) none) =
      ((1/2 : ℚ), ConfigStore.mk (some (1/2 : ℚ)) none) :=
  c5_threshold_amended.1 _ _ rfl (by norm_num)

/-! ### C2 — self-exclusion -/

theorem filteredCandidates_no_self (cid : String) (items : List CandidateWI) :
    ∀ w ∈ filteredCandidates cid items, w.id ≠ cid := by
  intro w hw
  have h := List.mem_filter.mp hw
  simpa using h.2

theorem filteredCandidates_drop_self (cid : String) (pre post : List CandidateWI)
    (self : CandidateWI) (h : self.id = cid) :
    filteredCandidates cid (pre ++ self :: post) =
      filteredCandidates cid (pre ++ post) := by
  unfold filteredCandidates
  simp [List.filter_append, List.filter_cons, h]

/-- C2: the candidate whose identity equals the current record's identity
is removed by the filter before any scoring — no surviving candidate
carries the current identity, and inserting a textually identical
self-candidate anywhere in the response leaves the chunk verdict
unchanged. -/
theorem c2_self_exclusion (cid t d : String) (ti di : ℚ)
    (pre post : List CandidateWI) (self : CandidateWI) (h : self.id = cid) :
    (∀ items : List CandidateWI, ∀ w ∈ filteredCandidates cid items, w.id ≠ cid) ∧
    chunkVerdict cid t d ti di (pre ++ self :: post) =
      chunkVerdict cid t d ti di (pre ++ post) := by
  constructor
  · intro items
    exact filteredCandidates_no_self cid items
  · unfold chunkVerdict
    rw [filteredCandidates_drop_self cid pre post self h]

theorem c2_self_exclusion_witness :
    chunkVerdict ("7") ("ab") ("") (1/2) (1/2)
      ([] ++ CandidateWI.mk ("7") ("ab") ("") :: [CandidateWI.mk ("9") ("xz") ("")]) =
      chunkVerdict ("7") ("ab") ("") (1/2) (1/2)
        ([] ++ [CandidateWI.mk ("9") ("xz") ("")]) :=
  (c2_self_exclusion ("7") ("ab") ("") (1/2) (1/2) []
    [CandidateWI.mk ("9") ("xz") ("")] (CandidateWI.mk ("7") ("ab") ("")) rfl).2

/-! ### C8 — the similarity coefficient -/

theorem bigrams_card (s : String) : (bigrams s).card = s.length - 1 := by
  unfold bigrams bigramList
  rw [Multiset.coe_card, List.length_zip, List.length_tail]
  have : s.length = s.data.length := rfl
  omega

theorem dice_comm (a b : String) : dice a b = dice b a := by
  unfold dice
  by_cases ha : a.length < 2 <;> by_cases hb : b.length < 2
  · simp [ha, hb]
  · simp [ha, hb]
  · simp [ha, hb]
  · rw [if_neg (by omega), if_neg (by omega), Multiset.inter_comm,
      Nat.add_comm b.length a.length]

theorem dice_nonneg (a b : String) : 0 ≤ dice a b := by
  unfold dice
  split
  · exact le_refl 0
  · positivity

theorem dice_le_one (a b : String) : dice a b ≤ 1 := by
  unfold dice
  split
  · norm_num
  · rename_i h
    rw [not_or] at h
    have ha : 2 ≤ a.length := by omega
    have hb : 2 ≤ b.length := by omega
    have hca : ((bigrams a) ∩ (bigrams b)).card ≤ a.length - 1 := by
      calc ((bigrams a) ∩ (bigrams b)).card
          ≤ (bigrams a).card := Multiset.card_le_card (Multiset.inter_le_left _ _)
        _ = a.length - 1 := bigrams_card a
    have hcb : ((bigrams a) ∩ (bigrams b)).card ≤ b.length - 1 := by
      calc ((bigrams a) ∩ (bigrams b)).card
          ≤ (bigrams b).card := Multiset.card_le_card (Multiset.inter_le_right _ _)
        _ = b.length - 1 := bigrams_card b
    rw [div_le_one (by exact_mod_cast Nat.pos_of_ne_zero (by omega))]
    exact_mod_cast (by omega :
      2 * ((bigrams a) ∩ (bigrams b)).card ≤ a.length + b.length - 2)

theorem dice_self (a : String) (h : 2 ≤ a.length) : dice a a = 1 := by
  unfold dice
  have hself : bigrams a ∩ bigrams a = bigrams a := by
    ext x
    simp [Multiset.count_inter]
  rw [if_neg (by omega), hself, bigrams_card]
  have h2 : 2 * (a.length - 1) = a.length + a.length - 2 := by omega
  rw [h2]
  apply div_self
  have hpos : (0 : ℚ) < ((a.length + a.length - 2 : ℕ) : ℚ) := by
    exact_mod_cast Nat.pos_of_ne_zero (by omega)
  exact hpos.ne'

theorem dice_short {a : String} (b : String) (h : a.length < 2) : dice a b = 0 := by
  unfold dice
  rw [if_pos (Or.inl h)]

/-- C8 counterexample: the one-character string is non-empty yet scores 0,
not 1, against itself — the coefficient's guard returns 0 whenever either
string has fewer than two characters. -/
theorem c8_counterexample :
    ("a" : String) ≠ "" ∧ dice ("a") ("a") = 0 ∧ dice ("a") ("a") ≠ 1 := by
  refine ⟨by decide, dice_short ("a") (by decide), ?_⟩
  rw [dice_short ("a") (by decide)]
  norm_num

/-- C8 (amended): the similarity score is symmetric and lies in [0, 1];
`dice a a = 1` holds for every string of at least two characters, while a
string of fewer than two characters scores 0 against everything. -/
theorem c8_dice_amended (a b : String) :
    dice a b = dice b a ∧ 0 ≤ dice a b ∧ dice a b ≤ 1 ∧
    (2 ≤ a.length → dice a a = 1) ∧ (a.length < 2 → dice a b = 0) :=
  ⟨dice_comm a b, dice_nonneg a b, dice_le_one a b,
    fun h => dice_self a h, fun h => dice_short b h⟩

theorem c8_dice_amended_witness :
    2 ≤ ("ab" : String).length ∧ dice ("ab") ("ab") = 1 :=
  ⟨by decide, (c8_dice_amended ("ab") ("ab")).2.2.2.1 (by decide)⟩

/-! ### C6 — chunking -/

theorem chunkLoop_nil : chunkLoop [] = [] := by
  rw [chunkLoop]

theorem chunkLoop_cons (x : WorkItemReference) (xs : List WorkItemReference) :
    chunkLoop (x :: xs) = (x :: xs).take 200 :: chunkLoop ((x :: xs).drop 200) := by
  rw [chunkLoop]

theorem chunkLoop_flatten_aux :
    ∀ (n : ℕ) (l : List WorkItemReference), l.length ≤ n →
      (chunkLoop l).flatten = l := by
  intro n
  induction n with
  | zero =>
    intro l hl
    have h0 : l = [] := List.length_eq_zero.mp (Nat.le_zero.mp hl)
    subst h0
    rw [chunkLoop_nil]
    rfl
  | succ n ih =>
    intro l hl
    cases l with
    | nil => rw [chunkLoop_nil]; rfl
    | cons x xs =>
      simp only [List.length_cons] at hl
      rw [chunkLoop_cons, List.flatten_cons, ih ((x :: xs).drop 200)
        (by simp only [List.length_drop, List.length_cons]; omega)]
      exact List.take_append_drop 200 (x :: xs)

theorem chunkLoop_mem_aux :
    ∀ (n : ℕ) (l : List WorkItemReference), l.length ≤ n →
      ∀ c ∈ chunkLoop l, c ≠ [] ∧ c.length ≤ 200 := by
  intro n
  induction n with
  | zero =>
    intro l hl c hc
    have h0 : l = [] := List.length_eq_zero.mp (Nat.le_zero.mp hl)
    subst h0
    rw [chunkLoop_nil] at hc
    cases hc
  | succ n ih =>
    intro l hl c hc
    cases l with
    | nil =>
      rw [chunkLoop_nil] at hc
      cases hc
    | cons x xs =>
      simp only [List.length_cons] at hl
      rw [chunkLoop_cons] at hc
      rcases List.mem_cons.mp hc with hc | hc
      · subst hc
        refine ⟨by simp, ?_⟩
        rw [List.length_take]
        omega
      · exact ih ((x :: xs).drop 200)
          (by simp only [List.length_drop, List.length_cons]; omega) c hc

/-- C6: the batching loop partitions the query result exactly — the
concatenation of the chunks, in order, is the original candidate list
(so every candidate lands in exactly one chunk, without overlap and in
the original relative order), every chunk is nonempty with at most 200
entries, and a result of 450 candidates yields exactly the chunk sizes
200, 200, 50. -/
theorem c6_chunking :
    (∀ l : List WorkItemReference, (chunkLoop l).flatten = l) ∧
    (∀ l : List WorkItemReference, ∀ c ∈ chunkLoop l, c ≠ [] ∧ c.length ≤ 200) ∧
    (∀ l : List WorkItemReference, l.length = 450 →
      (chunkLoop l).map List.length = [200, 200, 50]) := by
  refine ⟨fun l => chunkLoop_flatten_aux l.length l (le_refl _),
    fun l => chunkLoop_mem_aux l.length l (le_refl _), ?_⟩
  intro l hl
  cases l with
  | nil => simp at hl
  | cons x xs =>
    rw [chunkLoop_cons]
    have h1 : ((x :: xs).drop 200).length = 250 := by
      rw [List.length_drop, hl]
    obtain ⟨y, ys, h2⟩ : ∃ y ys, (x :: xs).drop 200 = y :: ys := by
      cases hd : (x :: xs).drop 200 with
      | nil => rw [hd] at h1; simp at h1
      | cons y ys => exact ⟨y, ys, rfl⟩
    rw [h2, chunkLoop_cons]
    have h8 : (y :: ys).length = 250 := by rw [← h2]; exact h1
    have h3 : ((y :: ys).drop 200).length = 50 := by
      rw [List.length_drop, h8]
    obtain ⟨z, zs, h4⟩ : ∃ z zs, (y :: ys).drop 200 = z :: zs := by
      cases hd : (y :: ys).drop 200 with
      | nil => rw [hd] at h3; simp at h3
      | cons z zs => exact ⟨z, zs, rfl⟩
    rw [h4, chunkLoop_cons]
    have h7 : (z :: zs).length = 50 := by rw [← h4]; exact h3
    have h5 : ((z :: zs).drop 200).length = 0 := by
      rw [List.length_drop, h7]
    rw [List.length_eq_zero.mp h5, chunkLoop_nil]
    simp only [List.map_cons, List.map_nil, List.length_take]
    rw [hl, h8, h7]
    decide

theorem c6_chunking_witness :
    ((chunkLoop ((List.range 450).map WorkItemReference.mk)).map List.length =
      [200, 200, 50]) ∧
    (chunkLoop ((List.range 450).map WorkItemReference.mk)).flatten =
      (List.range 450).map WorkItemReference.mk :=
  ⟨c6_chunking.2.2 ((List.range 450).map WorkItemReference.mk) (by simp),
    c6_chunking.1 ((List.range 450).map WorkItemReference.mk)⟩

/-! ### C4 — retry policy and soft failure -/

theorem fetchRetryFrom_stop (attempts : ℕ → AttemptResult) (i : ℕ)
    (h : ¬(retryOn (attempts i) = true ∧ i < retriesOption)) :
    fetchRetryFrom attempts i = attempts i := by
  rw [fetchRetryFrom, dif_neg h]

theorem fetchRetryFrom_step (attempts : ℕ → AttemptResult) (i : ℕ)
    (h1 : retryOn (attempts i) = true) (h2 : i < retriesOption) :
    fetchRetryFrom attempts i = fetchRetryFrom attempts (i + 1) := by
  conv_lhs => rw [fetchRetryFrom]
  rw [dif_pos ⟨h1, h2⟩]

theorem fetchRetryDelays_stop (attempts : ℕ → AttemptResult) (i : ℕ)
    (h : ¬(retryOn (attempts i) = true ∧ i < retriesOption)) :
    fetchRetryDelays attempts i = [] := by
  rw [fetchRetryDelays, dif_neg h]

theorem fetchRetryDelays_step (attempts : ℕ → AttemptResult) (i : ℕ)
    (h1 : retryOn (attempts i) = true) (h2 : i < retriesOption) :
    fetchRetryDelays attempts i = retryDelay i :: fetchRetryDelays attempts (i + 1) := by
  rw [fetchRetryDelays, dif_pos ⟨h1, h2⟩]

/-- C4: when the first `n` attempts all fail transiently (network error or
status 503/504) and attempt `n` either is not transiently failed or is
the last permitted one (`n = 3`), the fetch settles with attempt `n`'s
outcome after sleeping exactly the backoff delays `2 ^ i * 1000` for
`i < n`; and whenever the final outcome is a response with any non-2xx
status, `validateWorkItemChunk` resolves `false` — it neither raises nor
contributes a duplicate signal. -/
theorem c4_retry_policy (attempts : ℕ → AttemptResult) (n : ℕ)
    (hn : n ≤ retriesOption)
    (hretry : ∀ i, i < n → retryOn (attempts i) = true)
    (hstop : retryOn (attempts n) = false ∨ n = retriesOption) :
    fetchRetryResult attempts = attempts n ∧
    fetchRetryDelays attempts 0 = (List.range n).map retryDelay ∧
    (∀ a : ℕ, retryDelay a = 2 ^ a * 1000) ∧
    (∀ (status : ℕ) (items : List CandidateWI),
      attempts n = .response status items → ¬(200 ≤ status ∧ status < 300) →
      ∀ (cid t d : String) (ti di : ℚ),
        validateWorkItemChunk cid t d ti di attempts = .ok false) := by
  have hstop2 : ¬(retryOn (attempts n) = true ∧ n < retriesOption) := by
    rcases hstop with h | h
    · intro hc
      rw [h] at hc
      exact Bool.false_ne_true hc.1
    · intro hc
      omega
  have hres : fetchRetryResult attempts = attempts n := by
    unfold fetchRetryResult
    unfold retriesOption at hn
    interval_cases n
    · exact fetchRetryFrom_stop attempts 0 hstop2
    · rw [fetchRetryFrom_step attempts 0 (hretry 0 (by omega)) (by decide)]
      exact fetchRetryFrom_stop attempts 1 hstop2
    · rw [fetchRetryFrom_step attempts 0 (hretry 0 (by omega)) (by decide),
        fetchRetryFrom_step attempts 1 (hretry 1 (by omega)) (by decide)]
      exact fetchRetryFrom_stop attempts 2 hstop2
    · rw [fetchRetryFrom_step attempts 0 (hretry 0 (by omega)) (by decide),
        fetchRetryFrom_step attempts 1 (hretry 1 (by omega)) (by decide),
        fetchRetryFrom_step attempts 2 (hretry 2 (by omega)) (by decide)]
      exact fetchRetryFrom_stop attempts 3 hstop2
  refine ⟨hres, ?_, fun a => rfl, ?_⟩
  · unfold retriesOption at hn
    interval_cases n
    · rw [fetchRetryDelays_stop attempts 0 hstop2]
      rfl
    · rw [fetchRetryDelays_step attempts 0 (hretry 0 (by omega)) (by decide),
        fetchRetryDelays_stop attempts 1 hstop2]
      rfl
    · rw [fetchRetryDelays_step attempts 0 (hretry 0 (by omega)) (by decide),
        fetchRetryDelays_step attempts 1 (hretry 1 (by omega)) (by decide),
        fetchRetryDelays_stop attempts 2 hstop2]
      rfl
    · rw [fetchRetryDelays_step attempts 0 (hretry 0 (by omega)) (by decide),
        fetchRetryDelays_step attempts 1 (hretry 1 (by omega)) (by decide),
        fetchRetryDelays_step attempts 2 (hretry 2 (by omega)) (by decide),
        fetchRetryDelays_stop attempts 3 hstop2]
      rfl
  · intro status items hatt h2xx cid t d ti di
    unfold validateWorkItemChunk
    rw [hres, hatt]
    simp [h2xx]

theorem c4_retry_policy_witness :
    validateWorkItemChunk ("1") ("t") ("") 1 1
      (fun i => if i = 0 then AttemptResult.response 503 [] else AttemptResult.response 404 []) =
      .ok false ∧
    fetchRetryDelays
      (fun i => if i = 0 then AttemptResult.response 503 [] else AttemptResult.response 404 []) 0 =
      [1000] := by
  have h := c4_retry_policy
    (fun i => if i = 0 then AttemptResult.response 503 [] else AttemptResult.response 404 [])
    1 (by decide) (by intro i hi; interval_cases i; decide) (Or.inl (by decide))
  refine ⟨h.2.2.2 404 [] (by decide) (by decide) ("1") ("t") ("") 1 1, ?_⟩
  rw [h.2.1]
  rfl

/-! ### C3 — title scan precedence inside a chunk -/

theorem scanTitles_eq_any (t : String) (ti : ℚ) (l : List CandidateWI) :
    scanTitles t ti l =
      l.any (fun w => decide (ti ≤ dice t (normalizeString w.title))) := by
  induction l with
  | nil => rfl
  | cons w rest ih =>
    by_cases h : ti ≤ dice t (normalizeString w.title)
    · simp [scanTitles, h]
    · simp [scanTitles, h, ih]

theorem scanDescriptions_eq_any (d : String) (di : ℚ) (l : List CandidateWI) :
    scanDescriptions d di l =
      l.any (fun w => decide (di ≤ dice d (normalizeString w.description))) := by
  induction l with
  | nil => rfl
  | cons w rest ih =>
    by_cases h : di ≤ dice d (normalizeString w.description)
    · simp [scanDescriptions, h]
    · simp [scanDescriptions, h, ih]

/-- C3: with positive thresholds the chunk verdict is exactly: true when
some surviving candidate's title similarity reaches the title threshold,
otherwise true when the current description is non-empty and some
surviving candidate's description similarity reaches the description
threshold, otherwise false — the title scan takes precedence; and the
title scan short-circuits: a head candidate whose title already matches
settles the scan at `true` no matter what follows. -/
theorem c3_title_precedence (cid t d : String) (ti di : ℚ)
    (hti : 0 < ti) (hdi : 0 < di) (items : List CandidateWI) :
    (chunkVerdict cid t d ti di items =
      (((filteredCandidates cid items).any
          (fun w => decide (ti ≤ dice t (normalizeString w.title)))) ||
        (!((filteredCandidates cid items).any
            (fun w => decide (ti ≤ dice t (normalizeString w.title)))) &&
          (decide (d ≠ "") &&
            (filteredCandidates cid items).any
              (fun w => decide (di ≤ dice d (normalizeString w.description))))))) ∧
    (∀ (w : CandidateWI) (rest : List CandidateWI),
      ti ≤ dice t (normalizeString w.title) → scanTitles t ti (w :: rest) = true) := by
  constructor
  · unfold chunkVerdict
    by_cases ht : t = ""
    · have hany : (filteredCandidates cid items).any
          (fun w => decide (ti ≤ dice t (normalizeString w.title))) = false := by
        rw [List.any_eq_false]
        intro w hw
        subst ht
        rw [dice_short (normalizeString w.title) (by decide)]
        simpa using not_le.mpr hti
      rw [hany]
      simp only [ht, ne_eq, not_true_eq_false, if_false, Bool.false_or,
        Bool.not_false, Bool.true_and]
      by_cases hd : d = ""
      · simp [hd]
      · simp only [hd, ne_eq, not_false_eq_true, if_true, if_false]
        rw [scanDescriptions_eq_any]
        simp [hd]
    · simp only [ht, ne_eq, not_false_eq_true, if_true]
      rw [scanTitles_eq_any]
      by_cases hany : (filteredCandidates cid items).any
          (fun w => decide (ti ≤ dice t (normalizeString w.title))) = true
      · rw [hany]
        rfl
      · rw [Bool.not_eq_true] at hany
        rw [hany]
        simp only [Bool.false_or, Bool.not_false, Bool.true_and, if_false]
        by_cases hd : d = ""
        · simp [hd]
        · simp only [hd, ne_eq, not_false_eq_true, if_true]
          rw [scanDescriptions_eq_any]
          simp [hd]
  · intro w rest hw
    simp [scanTitles, hw]

theorem c3_title_precedence_witness :
    (0 : ℚ) < 1/2 ∧
    chunkVerdict ("1") ("abcd") ("") (1/2) (1/2)
        [CandidateWI.mk ("2") ("abcd") ("z")] =
      (((filteredCandidates ("1") [CandidateWI.mk ("2") ("abcd") ("z")]).any
          (fun w => decide ((1/2 : ℚ) ≤ dice ("abcd") (normalizeString w.title)))) ||
        (!((filteredCandidates ("1") [CandidateWI.mk ("2") ("abcd") ("z")]).any
            (fun w => decide ((1/2 : ℚ) ≤ dice ("abcd") (normalizeString w.title)))) &&
          (decide (("" : String) ≠ "") &&
            (filteredCandidates ("1") [CandidateWI.mk ("2") ("abcd") ("z")]).any
              (fun w => decide ((1/2 : ℚ) ≤ dice ("") (normalizeString w.description)))))) :=
  ⟨by norm_num,
    (c3_title_precedence ("1") ("abcd") ("") (1/2) (1/2) (by norm_num) (by norm_num)
      [CandidateWI.mk ("2") ("abcd") ("z")]).1⟩

/-! ### C1 — the race-to-first-duplicate aggregator -/

/-- C1 counterexample: with one evaluation rejecting at instant 0 and
another fulfilling `true` at instant 1, the aggregate settles at instant
0 with a rejection — it neither resolves `true` (although an evaluation
yielded `true`) nor converts the failure into `false`; a single rejecting
evaluation likewise makes the aggregate reject rather than resolve a
boolean. -/
theorem c1_counterexample :
    (getfirstResolvedPromise
        [PromiseEval.mk 0 (.error ()), PromiseEval.mk 1 (.ok true)]).2 = .error () ∧
    (PromiseEval.mk 1 (.ok true)).result = .ok true ∧
    (getfirstResolvedPromise [PromiseEval.mk 0 (.error ())]).2 = .error () := by
  decide

theorem raceWinner_le (cs : List (ℕ × Except Unit Bool)) (d : ℕ × Except Unit Bool) :
    (raceWinner cs d).1 ≤ d.1 ∧ ∀ c ∈ cs, (raceWinner cs d).1 ≤ c.1 := by
  induction cs with
  | nil => exact ⟨le_refl _, by intro c hc; cases hc⟩
  | cons c rest ih =>
    simp only [raceWinner]
    split
    · rename_i hle
      refine ⟨le_trans hle ih.1, ?_⟩
      intro x hx
      rcases List.mem_cons.mp hx with hx | hx
      · subst hx; exact le_refl _
      · exact le_trans hle (ih.2 x hx)
    · rename_i hgt
      refine ⟨ih.1, ?_⟩
      intro x hx
      rcases List.mem_cons.mp hx with hx | hx
      · subst hx; omega
      · exact ih.2 x hx

theorem raceWinner_mem_or (cs : List (ℕ × Except Unit Bool))
    (d : ℕ × Except Unit Bool) :
    raceWinner cs d ∈ cs ∨ raceWinner cs d = d := by
  induction cs with
  | nil => right; rfl
  | cons c rest ih =>
    simp only [raceWinner]
    split
    · left; exact List.mem_cons_self _ _
    · rcases ih with h | h
      · left; exact List.mem_cons_of_mem _ h
      · right; exact h

theorem raceWinner_mem_of_le (cs : List (ℕ × Except Unit Bool))
    (d : ℕ × Except Unit Bool) (h : ∃ c ∈ cs, c.1 ≤ d.1) :
    raceWinner cs d ∈ cs := by
  induction cs with
  | nil => obtain ⟨c, hc, _⟩ := h; cases hc
  | cons c rest ih =>
    simp only [raceWinner]
    split
    · exact List.mem_cons_self _ _
    · rename_i hgt
      by_cases hrest : ∃ x ∈ rest, x.1 ≤ d.1
      · exact List.mem_cons_of_mem _ (ih hrest)
      · obtain ⟨x, hx, hxd⟩ := h
        rcases List.mem_cons.mp hx with hx | hx
        · subst hx
          rcases raceWinner_mem_or rest d with hm | hm
          · exact List.mem_cons_of_mem _ hm
          · exfalso
            rw [hm] at hgt
            omega
        · exact absurd ⟨x, hx, hxd⟩ hrest

theorem mappedSettles_no_error (evals : List PromiseEval)
    (h : ∀ e ∈ evals, isErr e.result = false) :
    mappedSettles evals =
      (evals.filter (fun e => isTrueResult e.result)).map
        (fun e => (e.time, Except.ok true)) := by
  induction evals with
  | nil => rfl
  | cons e rest ih =>
    have he : isErr e.result = false := h e (List.mem_cons_self _ _)
    have hrest : ∀ x ∈ rest, isErr x.result = false :=
      fun x hx => h x (List.mem_cons_of_mem _ hx)
    unfold mappedSettles at ih ⊢
    match hr : e.result with
    | .ok true =>
      rw [List.filterMap_cons, List.filter_cons]
      simp only [hr, isTrueResult, if_true]
      rw [ih hrest]
      rfl
    | .ok false =>
      rw [List.filterMap_cons, List.filter_cons]
      simp only [hr, isTrueResult]
      rw [ih hrest]
      rfl
    | .error u =>
      rw [hr] at he
      simp [isErr] at he

theorem allSettle_no_error (evals : List PromiseEval)
    (h : ∀ e ∈ evals, isErr e.result = false) :
    allSettle evals = (maxTime evals, .ok false) := by
  have hf : evals.filter (fun e => isErr e.result) = [] := by
    rw [List.filter_eq_nil_iff]
    intro e he
    rw [h e he]
    exact Bool.false_ne_true
  unfold allSettle
  rw [hf]

theorem le_maxTime (evals : List PromiseEval) (e : PromiseEval) (h : e ∈ evals) :
    e.time ≤ maxTime evals := by
  unfold maxTime
  induction evals with
  | nil => cases h
  | cons a rest ih =>
    rw [List.map_cons, List.foldr_cons]
    rcases List.mem_cons.mp h with h1 | h1
    · subst h1
      exact le_max_left _ _
    · exact le_trans (ih h1) (le_max_right _ _)

/-- C1 (amended): when no evaluation fails, the aggregate resolves the
boolean "some evaluation yielded true": in the all-false case it resolves
`false` exactly when the last evaluation completes, and when some
evaluation yields `true` it resolves `true` at the earliest instant at
which a `true` settles (later evaluations are not waited for).  A failing
evaluation, however, is not converted into `false`: it propagates as a
rejection of the aggregate, as the counterexample shows. -/
theorem c1_aggregator_amended (evals : List PromiseEval)
    (hne : ∀ e ∈ evals, isErr e.result = false) :
    (getfirstResolvedPromise evals).2 =
      .ok (evals.any (fun e => isTrueResult e.result)) ∧
    (evals.any (fun e => isTrueResult e.result) = false →
      getfirstResolvedPromise evals = (maxTime evals, .ok false)) ∧
    (evals.any (fun e => isTrueResult e.result) = true →
      ∃ e ∈ evals, isTrueResult e.result = true ∧
        (getfirstResolvedPromise evals).1 = e.time ∧
        ∀ e2 ∈ evals, isTrueResult e2.result = true → e.time ≤ e2.time) := by
  have hall : allSettle evals = (maxTime evals, .ok false) := allSettle_no_error evals hne
  have hms := mappedSettles_no_error evals hne
  by_cases hany : evals.any (fun e => isTrueResult e.result) = true
  · have hmem : raceWinner (mappedSettles evals) (allSettle evals) ∈ mappedSettles evals := by
      apply raceWinner_mem_of_le
      obtain ⟨e0, he0, hv0⟩ := List.any_eq_true.mp hany
      refine ⟨(e0.time, Except.ok true), ?_, ?_⟩
      · rw [hms]
        exact List.mem_map.mpr ⟨e0, List.mem_filter.mpr ⟨he0, hv0⟩, rfl⟩
      · rw [hall]
        exact le_maxTime evals e0 he0
    rw [hms] at hmem
    obtain ⟨e, hef, hew⟩ := List.mem_map.mp hmem
    have hef2 := List.mem_filter.mp hef
    unfold getfirstResolvedPromise
    rw [hms]
    refine ⟨?_, ?_, ?_⟩
    · rw [hany, ← hew]
    · intro hfalse
      rw [hany] at hfalse
      cases hfalse
    · intro _
      refine ⟨e, hef2.1, hef2.2, ?_, ?_⟩
      · rw [← hew]
      · intro e2 he2 hv2
        have hle := (raceWinner_le ((evals.filter (fun x => isTrueResult x.result)).map
            (fun x => (x.time, Except.ok true))) (allSettle evals)).2
          (e2.time, Except.ok true)
          (List.mem_map.mpr ⟨e2, List.mem_filter.mpr ⟨he2, hv2⟩, rfl⟩)
        rw [← hew] at hle
        exact hle
  · rw [Bool.not_eq_true] at hany
    have hfilter : evals.filter (fun e => isTrueResult e.result) = [] := by
      rw [List.filter_eq_nil_iff]
      intro e he
      have := List.any_eq_false.mp hany e he
      simpa using this
    have hmsnil : mappedSettles evals = [] := by
      rw [hms, hfilter]
      rfl
    unfold getfirstResolvedPromise
    rw [hmsnil, hall, hany]
    exact ⟨rfl, fun _ => rfl, fun hc => by cases hc⟩

theorem c1_aggregator_amended_witness :
    (getfirstResolvedPromise
        [PromiseEval.mk 5 (.ok false), PromiseEval.mk 2 (.ok true)]).2 =
      .ok ([PromiseEval.mk 5 (.ok false), PromiseEval.mk 2 (.ok true)].any
        (fun e => isTrueResult e.result)) :=
  (c1_aggregator_amended
    [PromiseEval.mk 5 (.ok false), PromiseEval.mk 2 (.ok true)] (by decide)).1

/-! ### C9 — the invalid-fields gate -/

/-- C9: whenever the host form reports at least one other invalid field at
verdict time, `validateWorkItem` performs no error-state write at all —
neither `setError` nor `clearError` — whatever the computed verdict
was. -/
theorem c9_invalid_fields_gate (titleArg descriptionArg : String) (form : FormState)
    (store : ConfigStore) (queryItems : List WorkItemReference)
    (net : ℕ → ℕ → AttemptResult) (times : ℕ → ℕ)
    (h : form.invalidFields ≠ []) :
    (validateWorkItem titleArg descriptionArg form store queryItems net times).1 = [] := by
  have hlen : form.invalidFields.length > 0 := List.length_pos.mpr h
  unfold validateWorkItem
  dsimp only
  by_cases hcond : (if titleArg = "" then form.title else titleArg) = "" ∧
      (if descriptionArg = "" then form.description else descriptionArg) = ""
  · rw [if_pos hcond]
  · rw [if_neg hcond]
    split
    · rfl
    · rw [if_pos hlen]

theorem c9_invalid_fields_gate_witness :
    (validateWorkItem ("ab") ("") (FormState.mk ("ab") ("") ("") ("Bug") [("x")])
      (ConfigStore.mk none none) [] (fun _ _ => AttemptResult.response 500 [])
      (fun _ => 0)).1 = [] :=
  c9_invalid_fields_gate ("ab") ("") (FormState.mk ("ab") ("") ("") ("Bug") [("x")])
    (ConfigStore.mk none none) [] (fun _ _ => AttemptResult.response 500 [])
    (fun _ => 0) (by decide)

/-! ### C7 — normalization is idempotent: helper lemmas -/

theorem hasTag_cons (c : Char) (rest : List Char) :
    hasTag (c :: rest) =
      ((decide (c = '<') && rest.any (fun d => decide (d = '>'))) || hasTag rest) := rfl

theorem hasTag_false_cons {c : Char} {rest : List Char}
    (h : hasTag (c :: rest) = false) : hasTag rest = false := by
  rw [hasTag_cons, Bool.or_eq_false_iff] at h
  exact h.2

theorem hasTag_eq_false_of_no_gt {l : List Char}
    (h : l.any (fun d => decide (d = '>')) = false) : hasTag l = false := by
  induction l with
  | nil => rfl
  | cons c rest ih =>
    rw [List.any_cons, Bool.or_eq_false_iff] at h
    rw [hasTag_cons, ih h.2, h.2]
    simp

theorem hasTag_sublist {l1 l2 : List Char} (h : l1.Sublist l2) (ht : hasTag l1 = true) :
    hasTag l2 = true := by
  induction h with
  | slnil => exact ht
  | cons a _ ih =>
    rw [hasTag_cons, ih ht]
    simp
  | cons₂ a hsub ih =>
    rw [hasTag_cons] at ht ⊢
    simp only [Bool.or_eq_true, Bool.and_eq_true] at ht ⊢
    rcases ht with ⟨h1, h2⟩ | h1
    · left
      refine ⟨h1, ?_⟩
      obtain ⟨x, hx, hpx⟩ := List.any_eq_true.mp h2
      exact List.any_eq_true.mpr ⟨x, hsub.subset hx, hpx⟩
    · right
      exact ih h1

theorem hasTag_false_of_sublist {l1 l2 : List Char} (hs : l1.Sublist l2)
    (h : hasTag l2 = false) : hasTag l1 = false := by
  cases hc : hasTag l1 with
  | false => rfl
  | true => rw [hasTag_sublist hs hc] at h; cases h

theorem stripTags_nil : stripTags [] = [] := by
  rw [stripTags]

theorem stripTags_cons (c : Char) (rest : List Char) :
    stripTags (c :: rest) =
      if c = '<' then
        (if rest.any (fun d => decide (d = '>')) then
          stripTags ((rest.dropWhile (fun d => decide (d ≠ '>'))).tail)
        else c :: rest)
      else c :: stripTags rest := by
  rw [stripTags]

theorem stripTags_noTag_fuel :
    ∀ (n : ℕ) (l : List Char), l.length ≤ n → hasTag (stripTags l) = false := by
  intro n
  induction n with
  | zero =>
    intro l hl
    have h0 : l = [] := List.length_eq_zero.mp (Nat.le_zero.mp hl)
    subst h0
    rw [stripTags_nil]
    rfl
  | succ n ih =>
    intro l hl
    cases l with
    | nil => rw [stripTags_nil]; rfl
    | cons c rest =>
      simp only [List.length_cons] at hl
      rw [stripTags_cons]
      by_cases hc : c = '<'
      · rw [if_pos hc]
        cases hgt : rest.any (fun d => decide (d = '>')) with
        | true =>
          rw [if_pos rfl]
          apply ih
          have h1 : ((rest.dropWhile (fun d => decide (d ≠ '>'))).tail).length ≤
              (rest.dropWhile (fun d => decide (d ≠ '>'))).length := by
            cases rest.dropWhile (fun d => decide (d ≠ '>')) <;> simp
          have h2 := (List.dropWhile_sublist (l := rest)
            (fun d => decide (d ≠ '>'))).length_le
          omega
        | false =>
          rw [if_neg (by simp)]
          rw [hasTag_cons, hasTag_eq_false_of_no_gt hgt, hgt]
          simp
      · rw [if_neg hc, hasTag_cons, ih rest (by omega)]
        simp [hc]

theorem stripTags_noTag (l : List Char) : hasTag (stripTags l) = false :=
  stripTags_noTag_fuel l.length l (le_refl _)

theorem stripTags_eq_self_fuel :
    ∀ (n : ℕ) (l : List Char), l.length ≤ n → hasTag l = false → stripTags l = l := by
  intro n
  induction n with
  | zero =>
    intro l hl _
    have h0 : l = [] := List.length_eq_zero.mp (Nat.le_zero.mp hl)
    subst h0
    exact stripTags_nil
  | succ n ih =>
    intro l hl ht
    cases l with
    | nil => exact stripTags_nil
    | cons c rest =>
      simp only [List.length_cons] at hl
      rw [stripTags_cons]
      by_cases hc : c = '<'
      · rw [if_pos hc]
        have hgt : rest.any (fun d => decide (d = '>')) = false := by
          rw [hasTag_cons, Bool.or_eq_false_iff, Bool.and_eq_false_iff] at ht
          rcases ht.1 with h1 | h1
          · exfalso
            subst hc
            simp at h1
          · exact h1
        rw [if_neg (by simp [hgt])]
      · rw [if_neg hc, ih rest (by omega) (hasTag_false_cons ht)]

theorem stripTags_eq_self {l : List Char} (h : hasTag l = false) : stripTags l = l :=
  stripTags_eq_self_fuel l.length l (le_refl _) h

theorem wsChars_not_tag : ∀ c ∈ jsWhitespaceChars, c ≠ '<' ∧ c ≠ '>' := by decide

theorem isJsSpace_ne_lt {c : Char} (h : isJsSpace c = true) : c ≠ '<' :=
  (wsChars_not_tag c (of_decide_eq_true h)).1

theorem space_isJsSpace : isJsSpace ' ' = true := by decide

theorem space_not_punct : isPunct ' ' = false := by decide

theorem collapseWs_nil : collapseWs [] = [] := by
  rw [collapseWs]

theorem collapseWs_cons (c : Char) (rest : List Char) :
    collapseWs (c :: rest) =
      if isJsSpace c then
        (if rest.takeWhile isJsSpace = [] then [c] else [' ']) ++
          collapseWs (rest.dropWhile isJsSpace)
      else c :: collapseWs rest := by
  rw [collapseWs]

theorem collapseWs_cons_not_ws {c : Char} {rest : List Char}
    (h : isJsSpace c = false) : collapseWs (c :: rest) = c :: collapseWs rest := by
  rw [collapseWs_cons, if_neg (by simp [h])]

theorem mem_collapseWs_fuel :
    ∀ (n : ℕ) (l : List Char), l.length ≤ n →
      ∀ x ∈ collapseWs l, x ∈ l ∨ x = ' ' := by
  intro n
  induction n with
  | zero =>
    intro l hl x hx
    have h0 : l = [] := List.length_eq_zero.mp (Nat.le_zero.mp hl)
    subst h0
    rw [collapseWs_nil] at hx
    cases hx
  | succ n ih =>
    intro l hl x hx
    cases l with
    | nil =>
      rw [collapseWs_nil] at hx
      cases hx
    | cons c rest =>
      simp only [List.length_cons] at hl
      rw [collapseWs_cons] at hx
      by_cases hc : isJsSpace c = true
      · rw [if_pos hc] at hx
        rcases List.mem_append.mp hx with hx | hx
        · by_cases hrun : rest.takeWhile isJsSpace = []
          · rw [if_pos hrun] at hx
            rcases List.mem_singleton.mp hx with hx
            subst hx
            exact Or.inl (List.mem_cons_self _ _)
          · rw [if_neg hrun] at hx
            exact Or.inr (List.mem_singleton.mp hx)
        · have hlen := (List.dropWhile_sublist (l := rest) isJsSpace).length_le
          rcases ih (rest.dropWhile isJsSpace) (by omega) x hx with hx2 | hx2
          · exact Or.inl (List.mem_cons_of_mem _
              ((List.dropWhile_sublist isJsSpace).subset hx2))
          · exact Or.inr hx2
      · rw [if_neg hc] at hx
        rcases List.mem_cons.mp hx with hx | hx
        · subst hx
          exact Or.inl (List.mem_cons_self _ _)
        · rcases ih rest (by omega) x hx with hx2 | hx2
          · exact Or.inl (List.mem_cons_of_mem _ hx2)
          · exact Or.inr hx2

theorem mem_collapseWs {l : List Char} {x : Char} (hx : x ∈ collapseWs l) :
    x ∈ l ∨ x = ' ' :=
  mem_collapseWs_fuel l.length l (le_refl _) x hx

theorem chain_collapseWs_fuel :
    ∀ (n : ℕ) (l : List Char), l.length ≤ n → List.Chain' WsSep (collapseWs l) := by
  intro n
  induction n with
  | zero =>
    intro l hl
    have h0 : l = [] := List.length_eq_zero.mp (Nat.le_zero.mp hl)
    subst h0
    rw [collapseWs_nil]
    exact List.chain'_nil
  | succ n ih =>
    intro l hl
    cases l with
    | nil =>
      rw [collapseWs_nil]
      exact List.chain'_nil
    | cons c rest =>
      simp only [List.length_cons] at hl
      rw [collapseWs_cons]
      by_cases hc : isJsSpace c = true
      · rw [if_pos hc]
        have hlen := (List.dropWhile_sublist (l := rest) isJsSpace).length_le
        have htail : List.Chain' WsSep (collapseWs (rest.dropWhile isJsSpace)) :=
          ih (rest.dropWhile isJsSpace) (by omega)
        have hhead : ∀ y ∈ (collapseWs (rest.dropWhile isJsSpace)).head?,
            isJsSpace y = false := by
          intro y hy
          cases hd : rest.dropWhile isJsSpace with
          | nil =>
            rw [hd, collapseWs_nil] at hy
            cases hy
          | cons d r =>
            have hdws : isJsSpace d = false := by
              have hh := List.head?_dropWhile_not isJsSpace rest
              rw [hd] at hh
              simpa using hh
            rw [hd, collapseWs_cons_not_ws hdws] at hy
            simp only [List.head?_cons, Option.mem_some_iff] at hy
            subst hy
            exact hdws
        by_cases hrun : rest.takeWhile isJsSpace = []
        · rw [if_pos hrun]
          rw [List.singleton_append, List.chain'_cons']
          exact ⟨fun y hy => Or.inr (hhead y hy), htail⟩
        · rw [if_neg hrun]
          rw [List.singleton_append, List.chain'_cons']
          exact ⟨fun y hy => Or.inr (hhead y hy), htail⟩
      · rw [if_neg hc]
        rw [List.chain'_cons']
        refine ⟨fun y _ => Or.inl (by simpa using hc), ih rest (by omega)⟩

theorem chain_collapseWs (l : List Char) : List.Chain' WsSep (collapseWs l) :=
  chain_collapseWs_fuel l.length l (le_refl _)

theorem hasTag_collapseWs_fuel :
    ∀ (n : ℕ) (l : List Char), l.length ≤ n →
      hasTag (collapseWs l) = true → hasTag l = true := by
  intro n
  induction n with
  | zero =>
    intro l hl ht
    have h0 : l = [] := List.length_eq_zero.mp (Nat.le_zero.mp hl)
    subst h0
    rw [collapseWs_nil] at ht
    cases ht
  | succ n ih =>
    intro l hl ht
    cases l with
    | nil =>
      rw [collapseWs_nil] at ht
      cases ht
    | cons c rest =>
      simp only [List.length_cons] at hl
      rw [collapseWs_cons] at ht
      by_cases hc : isJsSpace c = true
      · rw [if_pos hc] at ht
        have hlen := (List.dropWhile_sublist (l := rest) isJsSpace).length_le
        have hw : ∀ w : Char, isJsSpace w = true →
            hasTag (w :: collapseWs (rest.dropWhile isJsSpace)) = true →
            hasTag (c :: rest) = true := by
          intro w hwws hwt
          rw [hasTag_cons] at hwt
          simp only [Bool.or_eq_true, Bool.and_eq_true] at hwt
          rcases hwt with ⟨h1, _⟩ | h1
          · exfalso
            exact isJsSpace_ne_lt hwws (of_decide_eq_true h1)
          · have h2 : hasTag (rest.dropWhile isJsSpace) = true :=
              ih (rest.dropWhile isJsSpace) (by omega) h1
            rw [hasTag_cons]
            rw [hasTag_sublist (List.dropWhile_sublist isJsSpace) h2]
            simp
        by_cases hrun : rest.takeWhile isJsSpace = []
        · rw [if_pos hrun, List.singleton_append] at ht
          exact hw c hc ht
        · rw [if_neg hrun, List.singleton_append] at ht
          exact hw ' ' space_isJsSpace ht
      · rw [if_neg hc] at ht
        rw [hasTag_cons] at ht ⊢
        simp only [Bool.or_eq_true, Bool.and_eq_true] at ht ⊢
        rcases ht with ⟨h1, h2⟩ | h1
        · left
          refine ⟨h1, ?_⟩
          obtain ⟨x, hx, hpx⟩ := List.any_eq_true.mp h2
          rcases mem_collapseWs hx with hx2 | hx2
          · exact List.any_eq_true.mpr ⟨x, hx2, hpx⟩
          · exfalso
            subst hx2
            have := of_decide_eq_true hpx
            exact (wsChars_not_tag ' ' (by decide)).2 this
        · right
          exact ih rest (by omega) h1

theorem hasTag_false_collapseWs {l : List Char} (h : hasTag l = false) :
    hasTag (collapseWs l) = false := by
  cases hc : hasTag (collapseWs l) with
  | false => rfl
  | true => rw [hasTag_collapseWs_fuel l.length l (le_refl _) hc] at h; cases h

theorem collapseWs_eq_self : ∀ (l : List Char), List.Chain' WsSep l → collapseWs l = l := by
  intro l
  induction l with
  | nil => intro _; exact collapseWs_nil
  | cons c rest ih =>
    intro h
    have hrest : List.Chain' WsSep rest := (List.chain'_cons'.mp h).2
    by_cases hc : isJsSpace c = true
    · rw [collapseWs_cons, if_pos hc]
      cases rest with
      | nil =>
        rw [List.takeWhile_nil, if_pos rfl, List.dropWhile_nil, collapseWs_nil]
        rfl
      | cons d r =>
        have hd : isJsSpace d = false := by
          have hsep := (List.chain'_cons'.mp h).1 d (by simp)
          rcases hsep with h1 | h1
          · rw [hc] at h1; cases h1
          · exact h1
        have hd2 : ¬(isJsSpace d = true) := by simp [hd]
        rw [List.takeWhile_cons, if_neg hd2, List.dropWhile_cons, if_neg hd2]
        rw [if_pos rfl, List.singleton_append, ih hrest]
    · rw [collapseWs_cons_not_ws (Bool.not_eq_true _ ▸ hc), ih hrest]

theorem dropWhile_eq_self_of_head {p : Char → Bool} {l : List Char}
    (h : ∀ c ∈ l.head?, p c = false) : l.dropWhile p = l := by
  cases l with
  | nil => rfl
  | cons c r =>
    have hc : p c = false := h c (by simp)
    have hc2 : ¬(p c = true) := by simp [hc]
    rw [List.dropWhile_cons, if_neg hc2]

theorem trimWs_infix (l : List Char) : trimWs l <:+: l := by
  unfold trimWs
  obtain ⟨s, hs⟩ := List.dropWhile_suffix (l := l) isJsSpace
  obtain ⟨t, ht⟩ :=
    List.dropWhile_suffix (l := (l.dropWhile isJsSpace).reverse) isJsSpace
  refine ⟨s, t.reverse, ?_⟩
  have hrev : ((l.dropWhile isJsSpace).reverse.dropWhile isJsSpace).reverse ++
      t.reverse = l.dropWhile isJsSpace := by
    rw [← List.reverse_append, ht, List.reverse_reverse]
  rw [List.append_assoc, hrev, hs]

theorem trimWs_getLast (l : List Char) :
    ∀ c ∈ (trimWs l).getLast?, isJsSpace c = false := by
  intro c hc
  unfold trimWs at hc
  rw [List.getLast?_reverse] at hc
  have hh := List.head?_dropWhile_not isJsSpace (l.dropWhile isJsSpace).reverse
  cases hd : ((l.dropWhile isJsSpace).reverse.dropWhile isJsSpace).head? with
  | none =>
    rw [hd] at hc
    cases hc
  | some x =>
    rw [hd] at hc hh
    simp only [Option.mem_some_iff] at hc
    subst hc
    exact hh

theorem trimWs_head (l : List Char) :
    ∀ c ∈ (trimWs l).head?, isJsSpace c = false := by
  intro c hc
  unfold trimWs at hc
  rw [List.head?_reverse] at hc
  obtain ⟨t, ht⟩ :=
    List.dropWhile_suffix (l := (l.dropWhile isJsSpace).reverse) isJsSpace
  cases hu : (l.dropWhile isJsSpace).reverse.dropWhile isJsSpace with
  | nil =>
    rw [hu] at hc
    cases hc
  | cons x xs =>
    have h1 : (l.dropWhile isJsSpace).reverse.getLast? = some c := by
      rw [← ht, List.getLast?_append, hu]
      rw [hu] at hc
      cases hg : (x :: xs).getLast? with
      | none => rw [hg] at hc; cases hc
      | some y =>
        rw [hg] at hc
        simp only [Option.mem_some_iff] at hc
        subst hc
        rfl
    have h2 : (l.dropWhile isJsSpace).head? = some c := by
      rw [← List.getLast?_reverse]
      exact h1
    have hh := List.head?_dropWhile_not isJsSpace l
    rw [h2] at hh
    exact hh

theorem trimWs_eq_self {l : List Char}
    (h1 : ∀ c ∈ l.head?, isJsSpace c = false)
    (h2 : ∀ c ∈ l.getLast?, isJsSpace c = false) : trimWs l = l := by
  unfold trimWs
  rw [dropWhile_eq_self_of_head h1]
  have h3 : ∀ c ∈ l.reverse.head?, isJsSpace c = false := by
    intro c hc
    rw [List.head?_reverse] at hc
    exact h2 c hc
  rw [dropWhile_eq_self_of_head h3, List.reverse_reverse]

theorem any_gt_map_jsToLower (l : List Char) :
    (l.map jsToLower).any (fun d => decide (d = '>')) =
      l.any (fun d => decide (d = '>')) := by
  induction l with
  | nil => rfl
  | cons c rest ih =>
    rw [List.map_cons, List.any_cons, List.any_cons, ih]
    have hiff : (jsToLower c = '>') ↔ (c = '>') :=
      jsToLower_eq_symbol (Or.inl (by decide)) c
    by_cases hcgt : c = '>'
    · have hfix : jsToLower '>' = '>' := by decide
      simp [hcgt, hfix]
    · have h2 : jsToLower c ≠ '>' := fun h => hcgt (hiff.mp h)
      simp [hcgt, h2]

theorem hasTag_map_jsToLower (l : List Char) :
    hasTag (l.map jsToLower) = hasTag l := by
  induction l with
  | nil => rfl
  | cons c rest ih =>
    rw [List.map_cons, hasTag_cons, hasTag_cons, ih, any_gt_map_jsToLower]
    have hiff : (jsToLower c = '<') ↔ (c = '<') :=
      jsToLower_eq_symbol (Or.inl (by decide)) c
    by_cases hclt : c = '<'
    · have hfix : jsToLower '<' = '<' := by decide
      simp [hclt, hfix]
    · have h2 : jsToLower c ≠ '<' := fun h => hclt (hiff.mp h)
      simp [hclt, h2]

theorem chain_map_jsToLower {l : List Char} (h : List.Chain' WsSep l) :
    List.Chain' WsSep (l.map jsToLower) := by
  rw [List.chain'_map]
  refine h.imp ?_
  intro a b hab
  rcases hab with h1 | h1
  · exact Or.inl (by rw [isJsSpace_jsToLower]; exact h1)
  · exact Or.inr (by rw [isJsSpace_jsToLower]; exact h1)

theorem map_jsToLower_eq_self {l : List Char} (h : ∀ c ∈ l, jsToLower c = c) :
    l.map jsToLower = l := by
  induction l with
  | nil => rfl
  | cons c rest ih =>
    rw [List.map_cons, h c (List.mem_cons_self _ _),
      ih (fun x hx => h x (List.mem_cons_of_mem _ hx))]

/-- Every stage output of `normalizeChars` is canonical: a fixed point of
all five stages. -/
theorem normalizeChars_canonical (l : List Char) : Canonical (normalizeChars l) := by
  unfold normalizeChars
  have h0 : hasTag (stripTags l) = false := stripTags_noTag l
  have h1 : hasTag (removePunct (stripTags l)) = false := by
    unfold removePunct
    exact hasTag_false_of_sublist (List.filter_sublist _) h0
  have h1p : ∀ c ∈ removePunct (stripTags l), isPunct c = false := by
    intro c hc
    unfold removePunct at hc
    have := (List.mem_filter.mp hc).2
    simpa using this
  have h2 : hasTag (collapseWs (removePunct (stripTags l))) = false :=
    hasTag_false_collapseWs h1
  have h2p : ∀ c ∈ collapseWs (removePunct (stripTags l)), isPunct c = false := by
    intro c hc
    rcases mem_collapseWs hc with hc2 | hc2
    · exact h1p c hc2
    · subst hc2
      exact space_not_punct
  have h2c : List.Chain' WsSep (collapseWs (removePunct (stripTags l))) :=
    chain_collapseWs _
  have hinf := trimWs_infix (collapseWs (removePunct (stripTags l)))
  have h3 : hasTag (trimWs (collapseWs (removePunct (stripTags l)))) = false :=
    hasTag_false_of_sublist hinf.sublist h2
  have h3p : ∀ c ∈ trimWs (collapseWs (removePunct (stripTags l))), isPunct c = false :=
    fun c hc => h2p c (hinf.sublist.subset hc)
  have h3c : List.Chain' WsSep (trimWs (collapseWs (removePunct (stripTags l)))) :=
    h2c.infix hinf
  have h3h := trimWs_head (collapseWs (removePunct (stripTags l)))
  have h3g := trimWs_getLast (collapseWs (removePunct (stripTags l)))
  refine ⟨?_, ?_, ?_, ?_, ?_, ?_⟩
  · rw [hasTag_map_jsToLower]
    exact h3
  · intro c hc
    obtain ⟨x, hx, hxc⟩ := List.mem_map.mp hc
    subst hxc
    rw [isPunct_jsToLower]
    exact h3p x hx
  · exact chain_map_jsToLower h3c
  · intro c hc
    rw [List.head?_map] at hc
    cases hz : (trimWs (collapseWs (removePunct (stripTags l)))).head? with
    | none => rw [hz] at hc; cases hc
    | some x =>
      rw [hz] at hc
      simp only [Option.map_some', Option.mem_some_iff] at hc
      subst hc
      rw [isJsSpace_jsToLower]
      exact h3h x (by rw [hz]; rfl)
  · intro c hc
    rw [List.getLast?_map] at hc
    cases hz : (trimWs (collapseWs (removePunct (stripTags l)))).getLast? with
    | none => rw [hz] at hc; cases hc
    | some x =>
      rw [hz] at hc
      simp only [Option.map_some', Option.mem_some_iff] at hc
      subst hc
      rw [isJsSpace_jsToLower]
      exact h3g x (by rw [hz]; rfl)
  · intro c hc
    obtain ⟨x, hx, hxc⟩ := List.mem_map.mp hc
    subst hxc
    exact jsToLower_idem x

/-- A canonical character list is a fixed point of the whole
normalization chain. -/
theorem normalizeChars_eq_self {l : List Char} (h : Canonical l) :
    normalizeChars l = l := by
  obtain ⟨h1, h2, h3, h4, h5, h6⟩ := h
  unfold normalizeChars
  rw [stripTags_eq_self h1]
  have hp : removePunct l = l := by
    unfold removePunct
    rw [List.filter_eq_self]
    intro c hc
    simp [h2 c hc]
  rw [hp, collapseWs_eq_self l h3, trimWs_eq_self h4 h5, map_jsToLower_eq_self h6]

/-- C7: `normalizeString` is idempotent, maps empty input to the empty
string, and on non-empty input is exactly the five-stage chain: strip
markup tags, remove the fixed punctuation set, collapse whitespace runs,
trim, lower-case. -/
theorem c7_normalize_idempotent :
    (∀ s : String, normalizeString (normalizeString s) = normalizeString s) ∧
    normalizeString ("") = "" ∧
    (∀ s : String, s ≠ "" →
      normalizeString s = String.mk (normalizeChars s.data)) := by
  have hempty : normalizeString ("") = "" := by
    unfold normalizeString
    rw [if_pos rfl]
  have hne : ∀ s : String, s ≠ "" → normalizeString s = String.mk (normalizeChars s.data) := by
    intro s hs
    unfold normalizeString
    rw [if_neg hs]
  refine ⟨?_, hempty, hne⟩
  intro s
  by_cases hs : s = ""
  · subst hs
    rw [hempty, hempty]
  · rw [hne s hs]
    by_cases hnil : normalizeChars s.data = []
    · rw [hnil]
      exact hempty
    · have hmkne : String.mk (normalizeChars s.data) ≠ "" := by
        intro hcon
        apply hnil
        have : (String.mk (normalizeChars s.data)).data = ("" : String).data := by
          rw [hcon]
        simpa using this
      rw [hne _ hmkne]
      have hdata : (String.mk (normalizeChars s.data)).data = normalizeChars s.data := rfl
      rw [hdata, normalizeChars_eq_self (normalizeChars_canonical s.data)]

theorem c7_normalize_idempotent_witness :
    normalizeString (normalizeString ("<b>Ab  c</b> - x")) =
      normalizeString ("<b>Ab  c</b> - x") ∧
    (("x" : String) ≠ "" ∧
      normalizeString ("x") = String.mk (normalizeChars ("x").data)) :=
  ⟨c7_normalize_idempotent.1 ("<b>Ab  c</b> - x"),
    by decide, c7_normalize_idempotent.2.2 ("x") (by decide)⟩
